import Mathlib

/-!
Shallow embedding of the lab-chain repository's chain core
(internal/chain/chain.go, internal/chain/block, internal/chain/tx,
internal/handler) and proofs about the frozen claims.

Modelling conventions:
* Go byte slices are `List Nat` (each entry one byte value).
* `math/big.Int` is `Int`; `uint64` is `Nat` (the operations used never
  reach the 2^64 wrap).
* External cryptography (crypto/sha256, Keccak, ECDSA recovery) and the
  JSON encoding of a transaction are library calls, not code of this
  repository; they are abstracted as an explicit parameter `E : Ext`
  threaded through the definitions.  Theorems quantify over `E`; the
  concrete instance `ext0` only closes witnesses and counterexamples.
* `Transaction.Hash()` (Keccak-256 of the signature-stripped canonical
  JSON) is modelled by the signature-stripped field record itself
  (`Transaction.hashKey`): the JSON encoding is injective on the fields
  and the hash is treated as collision-free, so equality of hashes is
  equality of stripped records.
* The unbounded proof-of-work loop in `MineBlock` is given explicit fuel
  and returns `Option Block`; `time.Now()` is passed as an argument.
-/

namespace LabChain

set_option maxRecDepth 8000

/-- Bytes model a Go `[]byte` value. -/
abbrev Bytes := List Nat

/-- Transaction mirrors `tx.Transaction` (internal/chain/tx/tx.go):
fields From, To, Amount, Nonce, Price, Signature. -/
structure Transaction where
  From : String
  To : String
  Amount : Int
  Nonce : Nat
  Price : Int
  Signature : Bytes
deriving DecidableEq, Repr

/-- COINBASE mirrors the constant `tx.COINBASE`. -/
def COINBASE : String := "COINBASE"

/-- TxKey is the signature-stripped content of a transaction; it models
the value `tx.Hash()` (Keccak-256 over the signature-stripped JSON,
treated as injective on the remaining fields). -/
structure TxKey where
  From : String
  To : String
  Amount : Int
  Nonce : Nat
  Price : Int
deriving DecidableEq, Repr

/-- Transaction.hashKey models `tx.Hash()`: the clone of the transaction
with Signature removed, fed to an injective encoding and a
collision-free hash. -/
def Transaction.hashKey (t : Transaction) : TxKey :=
  ⟨t.From, t.To, t.Amount, t.Nonce, t.Price⟩

/-- Ext collects the external library functions the chain core calls:
`sha` is crypto/sha256.Sum256, `encTx` is encoding/json.Marshal of a
transaction (as used in Merkle leaves), and `recover` is the ECDSA
public-key recovery of crypto.SigToPub followed by PubkeyToAddress,
returning the derived address for a (stripped-content, signature) pair. -/
structure Ext where
  sha : Bytes → Bytes
  encTx : Transaction → Bytes
  recover : TxKey → Bytes → Option String

/-- asciiLowerChar lowers one ASCII letter (the addresses the
repository compares are ASCII hex strings). -/
def asciiLowerChar (ch : Char) : Char :=
  if 65 ≤ ch.toNat ∧ ch.toNat ≤ 90 then Char.ofNat (ch.toNat + 32) else ch

/-- foldEq models Go `strings.EqualFold` restricted to the ASCII
addresses the repository uses: compare after lower-casing. -/
def foldEq (a b : String) : Bool :=
  a.data.map asciiLowerChar == b.data.map asciiLowerChar

/-- Transaction.VerifySignature mirrors `tx.VerifySignature`: coinbase
is unconditionally valid; otherwise the signature must have length 65,
recovery must succeed, and the derived address must case-insensitively
equal From. -/
def Transaction.VerifySignature (E : Ext) (t : Transaction) : Bool :=
  if t.From = COINBASE then true
  else if t.Signature.length ≠ 65 then false
  else
    match E.recover t.hashKey t.Signature with
    | none => false
    | some addr => foldEq addr t.From

/-- MTree models the `block.MerkleNode` pointer structure: `nil` is the
nil pointer, `node left right hash` an allocated node. -/
inductive MTree where
  | nil : MTree
  | node (left : MTree) (right : MTree) (hash : Bytes) : MTree
deriving DecidableEq, Repr

/-- MTree.rootHash reads the Hash field of a node (empty for nil). -/
def MTree.rootHash : MTree → Bytes
  | .nil => []
  | .node _ _ h => h

/-- MTree.equalGo mirrors `MerkleTree.Equal`'s `compareNodes`: nil
pointers match each other, and nodes match when hashes and both
subtrees match. -/
def MTree.equalGo : MTree → MTree → Bool
  | .nil, .nil => true
  | .nil, .node _ _ _ => false
  | .node _ _ _, .nil => false
  | .node l1 r1 h1, .node l2 r2 h2 =>
    h1 == h2 && MTree.equalGo l1 l2 && MTree.equalGo r1 r2

/-- Block mirrors `block.Block` (current version, with Difficulty and
MerkleRoot).  `MerkleRoot : Option MTree` models the possibly nil
`*block.MerkleTree`; its root node is the carried tree. -/
structure Block where
  Index : Nat
  PreviousHash : Bytes
  Timestamp : Int
  Transactions : List Transaction
  Miner : String
  Nonce : Nat
  Hash : Bytes
  Difficulty : Int
  MerkleRoot : Option MTree
deriving DecidableEq, Repr

/-- optRoot reads the root tree of a possibly nil `*MerkleTree`. -/
def optRoot : Option MTree → MTree
  | none => .nil
  | some t => t

/-- Block.equalGo mirrors `block.Block.Equal`: structural equality of
the header fields, hash, difficulty (big.Int Cmp = 0) and Merkle tree;
the transaction list is not compared, exactly as in the source. -/
def Block.equalGo (a b : Block) : Bool :=
  a.Index == b.Index &&
  a.PreviousHash == b.PreviousHash &&
  a.Timestamp == b.Timestamp &&
  a.Miner == b.Miner &&
  a.Nonce == b.Nonce &&
  a.Hash == b.Hash &&
  a.Difficulty == b.Difficulty &&
  MTree.equalGo (optRoot a.MerkleRoot) (optRoot b.MerkleRoot)

/-- hashPair mirrors `block.hashPair`: SHA-256 of the concatenation. -/
def hashPair (E : Ext) (left right : Bytes) : Bytes :=
  E.sha (left ++ right)

/-- buildLevel performs one pass of the tree-building loop in
`block.buildMerkleTree`: pair consecutive nodes, duplicating the hash of
an odd trailing node into a fresh childless node. -/
def buildLevel (E : Ext) : List MTree → List MTree
  | [] => []
  | [a] => [MTree.node a (MTree.node .nil .nil a.rootHash) (hashPair E a.rootHash a.rootHash)]
  | a :: b :: rest => MTree.node a b (hashPair E a.rootHash b.rootHash) :: buildLevel E rest

/-- buildLoopAux runs the `for len(nodes) > 1` loop of
`block.buildMerkleTree` with an explicit step bound; every level at
least halves the node count, so `nodes.length` steps always suffice and
the fallback arm is unreachable. -/
def buildLoopAux (E : Ext) : Nat → List MTree → MTree
  | 0, [] => .nil
  | 0, t :: _ => t
  | _ + 1, [] => .nil
  | _ + 1, [t] => t
  | fuel + 1, a :: b :: rest => buildLoopAux E fuel (buildLevel E (a :: b :: rest))

/-- buildLoop mirrors the `for len(nodes) > 1` loop of
`block.buildMerkleTree`. -/
def buildLoop (E : Ext) (nodes : List MTree) : MTree :=
  buildLoopAux E nodes.length nodes

/-- ComputeMerkleRoot mirrors `block.ComputeMerkleRoot`: the data list
is the header digest followed by the JSON encoding of each transaction;
leaves hash each datum, then levels are folded to a single root. -/
def ComputeMerkleRoot (E : Ext) (header : Bytes) (txs : List Transaction) : MTree :=
  buildLoop E ((header :: txs.map E.encTx).map (fun d => MTree.node .nil .nil (E.sha d)))

/-- hexDigitChar gives the lowercase hex digit for a nibble. -/
def hexDigitChar (n : Nat) : Char :=
  if n < 10 then Char.ofNat (48 + n) else Char.ofNat (87 + n)

/-- hexOfBytes models Go `fmt.Sprintf("%x", bs)` on a byte slice: two
lowercase hex digits per byte. -/
def hexOfBytes (bs : Bytes) : String :=
  String.mk (bs.foldr (fun b acc => hexDigitChar (b % 256 / 16) :: hexDigitChar (b % 16) :: acc) [])

/-- headerString models the header format string
`fmt.Sprintf("%d%x%d%s%d", index, prevHash, timestamp, miner, nonce)`. -/
def headerString (index : Nat) (prevHash : Bytes) (ts : Int) (miner : String) (nonce : Nat) : String :=
  toString index ++ hexOfBytes prevHash ++ toString ts ++ miner ++ toString nonce

/-- strBytes models the `[]byte(s)` conversion of a header string. -/
def strBytes (s : String) : Bytes := s.data.map Char.toNat

/-- bytesToNat models `new(big.Int).SetBytes`: big-endian base-256. -/
def bytesToNat (bs : Bytes) : Nat :=
  bs.foldl (fun a x => a * 256 + x % 256) 0

/-- Chain mirrors `chain.Chain`: the canonical block list plus the
pending fork cache (modelled as a list; only membership matters). -/
structure Chain where
  Blocks : List Block
  pendingForkBlocks : List Block
deriving DecidableEq, Repr

/-- allTxs is the nested block/transaction iteration every balance and
nonce query performs. -/
def Chain.allTxs (c : Chain) : List Transaction :=
  c.Blocks.foldr (fun b acc => b.Transactions ++ acc) []

/-- balanceFold mirrors the loop body of `Chain.GetBalance`: walk the
transactions, skip any whose hash was already seen, subtract the amount
when From matches and add it when To matches. -/
def balanceFold (address : String) : List Transaction → List TxKey → Int → Int
  | [], _, bal => bal
  | t :: rest, seen, bal =>
    if t.hashKey ∈ seen then balanceFold address rest seen bal
    else
      let bal1 := if t.From = address then bal - t.Amount else bal
      let bal2 := if t.To = address then bal1 + t.Amount else bal1
      balanceFold address rest (t.hashKey :: seen) bal2

/-- Chain.GetBalance mirrors `chain.GetBalance`: iterate all blocks'
transactions in order, de-duplicating by transaction hash. -/
def Chain.GetBalance (c : Chain) (address : String) : Int :=
  balanceFold address c.allTxs [] 0

/-- Chain.chainCount is the counting loop of `chain.GetNonce`: the
number of confirmed transactions sent from the address. -/
def Chain.chainCount (c : Chain) (address : String) : Nat :=
  c.allTxs.countP (fun t => t.From == address)

/-- Chain.GetNonce mirrors `chain.GetNonce`: confirmed send count plus
the caller-supplied base. -/
def Chain.GetNonce (c : Chain) (address : String) (base : Nat) : Nat :=
  c.chainCount address + base

/-- checkSigs mirrors the first transaction loop of
`chain.VerifyNewBlock`: every transaction's signature must verify. -/
def checkSigs (E : Ext) : List Transaction → Bool
  | [] => true
  | t :: rest => if t.VerifySignature E then checkSigs E rest else false

/-- checkSpend mirrors the second transaction loop of
`chain.VerifyNewBlock`: skip coinbase entries; otherwise require
balance ≥ amount + price against the chain snapshot, and the nonce to
equal `GetNonce(sender, tempMem[sender])`, bumping tempMem. -/
def checkSpend (c : Chain) : List Transaction → (String → Nat) → Bool
  | [], _ => true
  | t :: rest, mem =>
    if t.From = COINBASE then checkSpend c rest mem
    else
      let required := t.Amount + t.Price
      let balance := c.GetBalance t.From
      if balance < required then false
      else
        let expected := c.GetNonce t.From (mem t.From)
        if t.Nonce ≠ expected then false
        else checkSpend c rest (fun a => if a = t.From then mem a + 1 else mem a)

/-- Chain.VerifyNewBlock mirrors `chain.VerifyNewBlock` with its checks
in source order: nil previous accepts exactly index 0; then index link,
previous-hash link, proof-of-work bound against the block's own
difficulty, signatures, per-transaction balance and nonce, and finally
the Merkle root recomputation compared to the stored root hash. -/
def Chain.VerifyNewBlock (E : Ext) (c : Chain) (b : Block) (previous : Option Block) : Bool :=
  match previous with
  | none => b.Index == 0
  | some prev =>
    if b.Index ≠ prev.Index + 1 then false
    else if b.PreviousHash ≠ prev.Hash then false
    else if ¬ ((bytesToNat b.Hash : Int) < b.Difficulty) then false
    else if ¬ checkSigs E b.Transactions then false
    else if ¬ checkSpend c b.Transactions (fun _ => 0) then false
    else
      let headerDigest := E.sha (strBytes (headerString b.Index b.PreviousHash b.Timestamp b.Miner b.Nonce))
      let root := ComputeMerkleRoot E headerDigest b.Transactions
      match b.MerkleRoot with
      | none => false
      | some m => m.rootHash == root.rootHash

/-- Chain.AddBlock mirrors `chain.AddBlock`: append to the block list. -/
def Chain.AddBlock (c : Chain) (b : Block) : Chain :=
  { c with Blocks := c.Blocks ++ [b] }

/-- verifyChainLoop mirrors the index-1-upward loop of
`chain.VerifyChain`, including its guard exactly as written in the
source: a block is verified (and added to the temp chain) only when its
index is NOT previous.Index+1 while its PreviousHash does match. -/
def verifyChainLoop (E : Ext) (tempChain : Chain) : List Block → Block → Except String Unit
  | [], _ => Except.ok ()
  | cur :: rest, prevB =>
    if cur.Index ≠ prevB.Index + 1 ∧ cur.PreviousHash = prevB.Hash then
      if tempChain.VerifyNewBlock E cur (some prevB) then
        verifyChainLoop E (tempChain.AddBlock cur) rest cur
      else Except.error ("block " ++ toString cur.Index ++ " verification failed")
    else verifyChainLoop E tempChain rest cur

/-- Chain.VerifyChain mirrors `chain.VerifyChain`: the first block must
equal the expected genesis (Block.Equal), then the loop walks the rest.
The empty-chain case (a Go panic on `c.Blocks[0]`) is mapped to the
mismatch error; callers in the source always guard non-emptiness. -/
def Chain.VerifyChain (E : Ext) (c : Chain) (genesis : Block) : Except String Unit :=
  match c.Blocks with
  | [] => Except.error "genesis block mismatch"
  | first :: rest =>
    if first.equalGo genesis then
      verifyChainLoop E { Blocks := [genesis], pendingForkBlocks := [] } rest first
    else Except.error "genesis block mismatch"

/-- blk0 is a placeholder block used only for list reads that the
source guards to be in range. -/
def blk0 : Block :=
  ⟨0, [], 0, [], "", 0, [], 0, none⟩

/-- calcDifficulty mirrors `chain.calcDifficulty`: initial target 2^240
until the window fills, then latest.Difficulty * actual / expected
(big.Int Div is Euclidean division), floored at 1. -/
def Chain.calcDifficulty (c : Chain) (targetIntervalSec : Int) (windowSize : Nat) : Int :=
  let n := c.Blocks.length
  if n ≤ windowSize then 2 ^ 240
  else
    let latest := c.Blocks.getD (n - 1) blk0
    let past := c.Blocks.getD (n - 1 - windowSize) blk0
    let actualTime := latest.Timestamp - past.Timestamp
    let expectedTime := targetIntervalSec * (windowSize : Int)
    let newDifficulty := Int.ediv (latest.Difficulty * actualTime) expectedTime
    if newDifficulty < 1 then 1 else newDifficulty

/-- nonceLE is the comparator of the `sort.Slice` call in
`chain.MineBlock` (less is `Nonce <`; a correct, stable sort for it is
insertion sort, which Go uses on the short slices involved). -/
def nonceLE (a b : Transaction) : Prop := a.Nonce ≤ b.Nonce

instance : DecidableRel nonceLE := fun a b => Nat.decLe a.Nonce b.Nonce

instance : IsTotal Transaction nonceLE := ⟨fun a b => Nat.le_total a.Nonce b.Nonce⟩

instance : IsTrans Transaction nonceLE := ⟨fun _ _ _ h1 h2 => Nat.le_trans h1 h2⟩

/-- mineScan mirrors the proof-of-work loop of `chain.MineBlock`,
bounded by fuel: for each nonce recompute the header digest, rebuild
the Merkle tree, hash the root, and stop when it is below the target. -/
def mineScan (E : Ext) (index : Nat) (prevHash : Bytes) (ts : Int) (miner : String)
    (txs : List Transaction) (difficulty : Int) : Nat → Nat → Option (Nat × Bytes × MTree)
  | 0, _ => none
  | fuel + 1, nonce =>
    let headerDigest := E.sha (strBytes (headerString index prevHash ts miner nonce))
    let root := ComputeMerkleRoot E headerDigest txs
    let hash := E.sha root.rootHash
    if (bytesToNat hash : Int) < difficulty then some (nonce, hash, root)
    else mineScan E index prevHash ts miner txs difficulty fuel (nonce + 1)

/-- Chain.MineBlock mirrors `chain.MineBlock`: difficulty from
calcDifficulty(30, 10), a coinbase of the flat reward 100 with nonce =
index prepended, the list sorted by nonce, then the proof-of-work scan
(with fuel; the wall-clock timestamp is an argument). -/
def Chain.MineBlock (E : Ext) (c : Chain) (fuel : Nat) (prevHash : Bytes) (index : Nat)
    (ts : Int) (txs0 : List Transaction) (miner : String) : Option Block :=
  let difficulty := c.calcDifficulty 30 10
  let coinbaseTx : Transaction := ⟨COINBASE, miner, 100, index, 0, []⟩
  let txs := List.insertionSort nonceLE (coinbaseTx :: txs0)
  match mineScan E index prevHash ts miner txs difficulty fuel 0 with
  | none => none
  | some (nonce, hash, root) =>
    some ⟨index, prevHash, ts, txs, miner, nonce, hash, difficulty, some root⟩

/-- Chain.GetBlockByIndex mirrors `chain.GetBlockByIndex`: the block at
position i when in range, nil otherwise. -/
def Chain.GetBlockByIndex (c : Chain) (i : Nat) : Option Block :=
  if i < c.Blocks.length then c.Blocks[i]? else none

/-- Chain.GetBlockByHash mirrors `chain.GetBlockByHash`: scan the
canonical blocks, then the pending fork cache, for a matching hash. -/
def Chain.GetBlockByHash (c : Chain) (hash : Bytes) : Option Block :=
  match c.Blocks.find? (fun blk => blk.Hash == hash) with
  | some blk => some blk
  | none => c.pendingForkBlocks.find? (fun blk => blk.Hash == hash)

/-- BlockMsgType mirrors `block.BlockMsgType` ("BLOCK", "REQ", "RESP"). -/
inductive BlockMsgType where
  | BLOCK : BlockMsgType
  | REQ : BlockMsgType
  | RESP : BlockMsgType
deriving DecidableEq, Repr

/-- BlockMessage mirrors `block.BlockMessage`; the Go field `Type` is
named MsgType here because `Type` is reserved in Lean. -/
structure BlockMessage where
  MsgType : BlockMsgType
  Blocks : List Block
  Idx : Nat
deriving DecidableEq, Repr

/-- RequestChain mirrors `handler.RequestChain` on a non-nil chain: an
empty block list is an error; otherwise the REQ message carrying the
tail block's index is built (and published by the caller). -/
def RequestChain (blocks : List Block) : Except String BlockMessage :=
  match blocks.getLast? with
  | none => Except.error "user chain is empty"
  | some lastBlock => Except.ok ⟨BlockMsgType.REQ, [], lastBlock.Index⟩

/-- handleIncomingBlock mirrors `handler.handleIncomingBlock`: the
parent must be known by hash; an extension candidate (index = tail+1,
linked by hash) is verified and appended; everything else errors.  The
returned pair is the updated chain and the result. -/
def handleIncomingBlock (E : Ext) (c : Chain) (b : Block) : Chain × Except String Unit :=
  match c.Blocks.getLast? with
  | none => (c, Except.error "local chain empty")
  | some last =>
    match c.GetBlockByHash b.PreviousHash with
    | none => (c, Except.error ("unknown parent block: index " ++ toString b.Index))
    | some _ =>
      if b.Index = last.Index + 1 ∧ b.PreviousHash = last.Hash then
        if c.VerifyNewBlock E b (some last) then (c.AddBlock b, Except.ok ())
        else (c, Except.error ("block failed verification: index " ++ toString b.Index))
      else (c, Except.error ("unacceptable block: index " ++ toString b.Index))

/-- BlockStepOut is the observable effect of the BLOCK branch of
`handler.RunSubscribeAndCollectBlock`: the new chain, the transactions
evicted from the mempool, the messages published on the block topic,
and the rejection reason if any. -/
structure BlockStepOut where
  chain : Chain
  evicted : List Transaction
  published : List BlockMessage
  rejected : Option String
deriving Repr

/-- handleBlockMsgBlock mirrors the `case block.BlockMsgTypeBlock`
branch of `handler.RunSubscribeAndCollectBlock`: on acceptance the
block's transactions are removed from the mempool; on rejection the
handler only logs.  Neither path publishes anything. -/
def handleBlockMsgBlock (E : Ext) (c : Chain) (b : Block) : BlockStepOut :=
  match handleIncomingBlock E c b with
  | (c2, Except.ok _) => ⟨c2, b.Transactions, [], none⟩
  | (c2, Except.error e) => ⟨c2, [], [], some e⟩

/-- handleIncomingRequestBlock mirrors
`handler.handleIncomingRequestBlock`: an out-of-range requested index
triggers RequestChain (we too need catch-up); otherwise a RESP carrying
the entire local block list is published.  The returned pair is the
list of published messages and the result. -/
def handleIncomingRequestBlock (c : Chain) (idx : Nat) : List BlockMessage × Except String Unit :=
  if c.Blocks.length ≤ idx then
    match RequestChain c.Blocks with
    | Except.ok msg => ([msg], Except.ok ())
    | Except.error e => ([], Except.error e)
  else ([⟨BlockMsgType.RESP, c.Blocks, 0⟩], Except.ok ())

/-- handleIncomingResponseBlock mirrors
`handler.handleIncomingResponseBlock` (handle_incoming.go): empty offer
errors; an offer whose tail index does not exceed the local tail is
ignored; otherwise the offered chain is verified against the local
genesis and, on success, replaces the local block list wholesale.  The
unreachable empty-local case (a Go panic) is mapped to an error. -/
def handleIncomingResponseBlock (E : Ext) (localBlocks offered : List Block) :
    List Block × Except String Unit :=
  match offered.getLast? with
  | none => (localBlocks, Except.error "empty block response")
  | some lastOffered =>
    match localBlocks, localBlocks.getLast? with
    | g :: _, some localLast =>
      if lastOffered.Index ≤ localLast.Index then (localBlocks, Except.ok ())
      else
        match Chain.VerifyChain E { Blocks := offered, pendingForkBlocks := [] } g with
        | Except.ok _ => (offered, Except.ok ())
        | Except.error e => (localBlocks, Except.error ("invalid chain received: " ++ e))
    | _, _ => (localBlocks, Except.error "local chain empty")

/-- ext0 is a concrete instance of the external functions, used only to
close witnesses and counterexamples: a constant 32-byte digest, the
empty encoding, and a recovery that returns the address "A". -/
def ext0 : Ext :=
  ⟨fun _ => List.replicate 32 0, fun _ => [], fun _ _ => some "A"⟩

/-- z32 is the digest ext0.sha returns on every input. -/
def z32 : Bytes := List.replicate 32 0

/-- leafZ is a Merkle leaf carrying the ext0 digest. -/
def leafZ : MTree := MTree.node MTree.nil MTree.nil z32

/-- exG is a concrete well-formed genesis-like block used in concrete
evaluations: one coinbase transaction granting 1000 to "A". -/
def exG : Block :=
  ⟨0, [], 0, [⟨COINBASE, "A", 1000, 0, 0, []⟩], "A", 0, [7], 1, some leafZ⟩

/-- exB1 is a block with the correct successor index and hash link but
failing proof-of-work (hash 5 against difficulty 1). -/
def exB1 : Block := ⟨1, [7], 0, [], "M", 0, [5], 1, some leafZ⟩

/-- exB2 is a block that satisfies every check of VerifyNewBlock while
its Hash field (byte 0) is not the SHA-256 of its Merkle root. -/
def exB2 : Block := ⟨1, [7], 0, [], "M", 0, [0], 1, some leafZ⟩

theorem getBlockByHash_none_iff (c : Chain) (h : Bytes) :
    c.GetBlockByHash h = none ↔
      ∀ b : Block, b ∈ c.Blocks ∨ b ∈ c.pendingForkBlocks → b.Hash ≠ h := by
  unfold Chain.GetBlockByHash
  cases hf : c.Blocks.find? (fun blk => blk.Hash == h) with
  | some blk =>
    simp only
    constructor
    · intro hcontra; exact absurd hcontra (by simp)
    · intro hall
      have hmem := List.mem_of_find?_eq_some hf
      have hpred := List.find?_some hf
      exact absurd (beq_iff_eq.mp hpred) (hall blk (Or.inl hmem))
  | none =>
    simp only
    rw [List.find?_eq_none] at hf
    rw [List.find?_eq_none]
    constructor
    · intro hp b hb
      cases hb with
      | inl h1 => have := hf b h1; simpa using this
      | inr h2 => have := hp b h2; simpa using this
    · intro hall b hb
      have := hall b (Or.inr hb)
      simpa using this

/-- C10: block lookups are total and signal absence by nil:
GetBlockByIndex returns none for every index at or beyond the chain
length, and GetBlockByHash returns none exactly when no canonical block
and no pending-fork block carries the hash. -/
theorem lookup_none_semantics (c : Chain) (i : Nat) (h : Bytes)
    (hi : c.Blocks.length ≤ i) :
    c.GetBlockByIndex i = none ∧
    (c.GetBlockByHash h = none ↔
      ∀ b : Block, b ∈ c.Blocks ∨ b ∈ c.pendingForkBlocks → b.Hash ≠ h) :=
  ⟨by unfold Chain.GetBlockByIndex; rw [if_neg (by omega)],
   getBlockByHash_none_iff c h⟩

/-- Witness for C10 at a concrete chain and index. -/
theorem lookup_none_semantics_witness :
    Chain.GetBlockByIndex ⟨[exG], []⟩ 3 = none ∧
    Chain.GetBlockByHash ⟨[exG], []⟩ [1] = none :=
  ⟨(lookup_none_semantics ⟨[exG], []⟩ 3 [1] (by decide)).1,
   (lookup_none_semantics ⟨[exG], []⟩ 3 [1] (by decide)).2.mpr (by
      intro b hb
      rcases hb with h1 | h1
      · rw [List.mem_singleton] at h1
        subst h1
        decide
      · cases h1)⟩

/-- C3 (code bug): VerifyChain accepts the chain [exG, exB1] even
though exB1 fails VerifyNewBlock against exG, because the loop guard
`current.Index != previous.Index+1 && bytes.Equal(...)` skips every
block whose index is consecutive; the verification body is dead code on
well-formed chains. -/
theorem verifyChain_skips_consecutive_blocks :
    Chain.VerifyChain ext0 ⟨[exG, exB1], []⟩ exG = Except.ok () ∧
    Chain.VerifyNewBlock ext0 ⟨[exG], []⟩ exB1 (some exG) = false :=
  ⟨rfl, by decide⟩

theorem mineScan_eq_some (E : Ext) (index : Nat) (prevHash : Bytes) (ts : Int)
    (miner : String) (txs : List Transaction) (difficulty : Int) :
    ∀ fuel nonce n2 hash root,
      mineScan E index prevHash ts miner txs difficulty fuel nonce = some (n2, hash, root) →
      hash = E.sha root.rootHash ∧ (bytesToNat hash : Int) < difficulty := by
  intro fuel
  induction fuel with
  | zero => intro nonce n2 hash root h; exact absurd h (by simp [mineScan])
  | succ n ih =>
    intro nonce n2 hash root h
    simp only [mineScan] at h
    split at h
    · rename_i hc
      rw [Option.some.injEq, Prod.mk.injEq, Prod.mk.injEq] at h
      obtain ⟨h1, h2, h3⟩ := h
      subst h2
      subst h3
      exact ⟨rfl, hc⟩
    · exact ih _ _ _ _ h

theorem mineBlock_fields (E : Ext) (c : Chain) (fuel : Nat) (prevHash : Bytes)
    (index : Nat) (ts : Int) (txs0 : List Transaction) (miner : String) (b : Block)
    (h : c.MineBlock E fuel prevHash index ts txs0 miner = some b) :
    b.Transactions = List.insertionSort nonceLE (⟨COINBASE, miner, 100, index, 0, []⟩ :: txs0) ∧
    b.Difficulty = c.calcDifficulty 30 10 ∧
    b.Hash = E.sha (optRoot b.MerkleRoot).rootHash ∧
    (bytesToNat b.Hash : Int) < b.Difficulty := by
  simp only [Chain.MineBlock] at h
  cases hm : mineScan E index prevHash ts miner
      (List.insertionSort nonceLE (⟨COINBASE, miner, 100, index, 0, []⟩ :: txs0))
      (c.calcDifficulty 30 10) fuel 0 with
  | none => rw [hm] at h; simp at h
  | some t =>
    obtain ⟨n2, hash, root⟩ := t
    rw [hm] at h
    have hb := Option.some.inj h
    obtain ⟨hh, hlt⟩ := mineScan_eq_some E index prevHash ts miner _ _ fuel 0 n2 hash root hm
    subst hb
    exact ⟨rfl, rfl, hh, hlt⟩

/-- C1 is refuted on the verification path: exB2 passes VerifyNewBlock
against exG (the Merkle root matches and the stored hash meets the
difficulty) yet its Hash field is not the SHA-256 of its Merkle root;
VerifyNewBlock never recomputes the hash from the root. -/
theorem accepted_hash_not_sha_of_root :
    Chain.VerifyNewBlock ext0 ⟨[exG], []⟩ exB2 (some exG) = true ∧
    exB2.Hash ≠ ext0.sha (optRoot exB2.MerkleRoot).rootHash :=
  ⟨by decide, by decide⟩

/-- C1 (amended): the hash/Merkle-root link holds for every block that
MineBlock produces — its Hash is the SHA-256 of its Merkle root and
meets its difficulty — while VerifyNewBlock checks only that the stored
Merkle root hash equals the recomputed one, not the hash-root link. -/
theorem mined_hash_is_sha_of_root (E : Ext) (c : Chain) (fuel : Nat) (prevHash : Bytes)
    (index : Nat) (ts : Int) (txs0 : List Transaction) (miner : String) (b : Block)
    (h : c.MineBlock E fuel prevHash index ts txs0 miner = some b) :
    b.Hash = E.sha (optRoot b.MerkleRoot).rootHash ∧
    (bytesToNat b.Hash : Int) < b.Difficulty :=
  ⟨(mineBlock_fields E c fuel prevHash index ts txs0 miner b h).2.2.1,
   (mineBlock_fields E c fuel prevHash index ts txs0 miner b h).2.2.2⟩

/-- exMined is the block MineBlock produces from an empty selection on
the one-block chain [exG] under ext0 with fuel 1. -/
def exMined : Block :=
  ⟨1, [7], 0, [⟨COINBASE, "M", 100, 1, 0, []⟩], "M", 0, z32, 2 ^ 240,
   some (MTree.node leafZ leafZ z32)⟩

/-- Witness for C1 (amended) at a concrete mining run. -/
theorem mined_hash_is_sha_of_root_witness :
    exMined.Hash = ext0.sha (optRoot exMined.MerkleRoot).rootHash ∧
    (bytesToNat exMined.Hash : Int) < exMined.Difficulty :=
  mined_hash_is_sha_of_root ext0 ⟨[exG], []⟩ 1 [7] 1 0 [] "M" exMined (by decide)

/-- exTxP is a non-coinbase transaction carrying a fee (Price 5). -/
def exTxP : Transaction := ⟨"A", "B", 1, 0, 5, List.replicate 65 0⟩

/-- exMinedFee is the block MineBlock produces from the selection
[exTxP] on the one-block chain [exG] under ext0 with fuel 1. -/
def exMinedFee : Block :=
  ⟨1, [7], 0, [exTxP, ⟨COINBASE, "M", 100, 1, 0, []⟩], "M", 0, z32, 2 ^ 240,
   some (MTree.node (MTree.node leafZ leafZ z32) (MTree.node leafZ leafZ z32) z32)⟩

/-- C2 is refuted: mining over a selection whose fee sum is 5 produces
a coinbase of amount 100, not 100 + 5, no transaction of the block pays
100 + 5, and the block's first transaction is not the coinbase (the
nonce sort put the user transaction first). -/
theorem coinbase_ignores_fees :
    Chain.MineBlock ext0 ⟨[exG], []⟩ 1 [7] 1 0 [exTxP] "M" = some exMinedFee ∧
    exMinedFee.Transactions.head? = some exTxP ∧
    exTxP.From ≠ COINBASE ∧
    exMinedFee.Transactions.all (fun t => t.Amount != 105) = true :=
  ⟨by decide, by decide, by decide, by decide⟩

/-- C2 (amended): every block MineBlock produces from a coinbase-free
selection contains exactly one coinbase transaction, and it pays the
flat base reward 100 (fees are not added) to the miner with nonce =
index; the nonce sort decides its position, and VerifyNewBlock performs
no coinbase check at all. -/
theorem mineBlock_coinbase_flat (E : Ext) (c : Chain) (fuel : Nat) (prevHash : Bytes)
    (index : Nat) (ts : Int) (txs0 : List Transaction) (miner : String) (b : Block)
    (hcb : ∀ t ∈ txs0, t.From ≠ COINBASE)
    (h : c.MineBlock E fuel prevHash index ts txs0 miner = some b) :
    b.Transactions.filter (fun t => t.From == COINBASE) =
      [⟨COINBASE, miner, 100, index, 0, []⟩] := by
  obtain ⟨htx, -, -, -⟩ := mineBlock_fields E c fuel prevHash index ts txs0 miner b h
  rw [htx]
  have hperm := (List.perm_insertionSort nonceLE
      (⟨COINBASE, miner, 100, index, 0, []⟩ :: txs0)).filter (fun t => t.From == COINBASE)
  have hbase : (⟨COINBASE, miner, 100, index, 0, []⟩ :: txs0).filter
      (fun t => t.From == COINBASE) = [⟨COINBASE, miner, 100, index, 0, []⟩] := by
    rw [List.filter_cons_of_pos (by simp)]
    have hnil : txs0.filter (fun t => t.From == COINBASE) = [] := by
      rw [List.filter_eq_nil_iff]
      intro a ha
      simpa using hcb a ha
    rw [hnil]
  rw [hbase] at hperm
  exact List.perm_singleton.mp hperm

/-- Witness for C2 (amended) at a concrete mining run. -/
theorem mineBlock_coinbase_flat_witness :
    exMinedFee.Transactions.filter (fun t => t.From == COINBASE) =
      [⟨COINBASE, "M", 100, 1, 0, []⟩] :=
  mineBlock_coinbase_flat ext0 ⟨[exG], []⟩ 1 [7] 1 0 [exTxP] "M" exMinedFee
    (by decide) (by decide)

/-- exTx7 is a non-coinbase transaction with nonce 0. -/
def exTx7 : Transaction := ⟨"A", "B", 2, 0, 0, List.replicate 65 0⟩

/-- exMined7 is the block MineBlock produces from the selection [exTx7]
on the one-block chain [exG] under ext0 with fuel 1; the coinbase
(nonce = index = 1) sorts after the nonce-0 user transaction. -/
def exMined7 : Block :=
  ⟨1, [7], 0, [exTx7, ⟨COINBASE, "M", 100, 1, 0, []⟩], "M", 0, z32, 2 ^ 240,
   some (MTree.node (MTree.node leafZ leafZ z32) (MTree.node leafZ leafZ z32) z32)⟩

/-- C7 is refuted on its position-0 part: the mined block's first
transaction is the nonce-0 user transaction, not the coinbase, because
the coinbase carries nonce = index = 1 and the list is sorted by nonce. -/
theorem coinbase_not_first :
    Chain.MineBlock ext0 ⟨[exG], []⟩ 1 [7] 1 0 [exTx7] "M" = some exMined7 ∧
    exMined7.Transactions.head? = some exTx7 ∧
    exTx7.From ≠ COINBASE :=
  ⟨by decide, by decide, by decide⟩

/-- C7 (amended): the transaction list of every mined block is sorted
by nonce ascending (the comparator reads only the nonce; equal nonces
keep their input order, with no sender tie-break) and is a permutation
of the coinbase followed by the selected transactions; the coinbase is
at position 0 only when its nonce (= index) is minimal. -/
theorem mineBlock_sorted_by_nonce (E : Ext) (c : Chain) (fuel : Nat) (prevHash : Bytes)
    (index : Nat) (ts : Int) (txs0 : List Transaction) (miner : String) (b : Block)
    (h : c.MineBlock E fuel prevHash index ts txs0 miner = some b) :
    List.Sorted nonceLE b.Transactions ∧
    b.Transactions.Perm (⟨COINBASE, miner, 100, index, 0, []⟩ :: txs0) := by
  obtain ⟨htx, -, -, -⟩ := mineBlock_fields E c fuel prevHash index ts txs0 miner b h
  rw [htx]
  exact ⟨List.sorted_insertionSort nonceLE _, List.perm_insertionSort nonceLE _⟩

/-- Witness for C7 (amended) at a concrete mining run. -/
theorem mineBlock_sorted_by_nonce_witness :
    List.Sorted nonceLE exMined7.Transactions ∧
    exMined7.Transactions.Perm [⟨COINBASE, "M", 100, 1, 0, []⟩, exTx7] :=
  mineBlock_sorted_by_nonce ext0 ⟨[exG], []⟩ 1 [7] 1 0 [exTx7] "M" exMined7 (by decide)

/-- C5: the RESP handler leaves the chain unchanged and errors on an
empty offer; ignores an offer whose tail index does not exceed the
local tail; and otherwise replaces the whole block sequence exactly
when the offered chain passes VerifyChain against the local genesis,
leaving the chain unchanged (with an error) on verification failure. -/
theorem resp_replacement_semantics (E : Ext) (g : Block) (rest offered : List Block) :
    (handleIncomingResponseBlock E (g :: rest) [] =
      ((g :: rest), Except.error "empty block response")) ∧
    (∀ lo ll, offered.getLast? = some lo → (g :: rest).getLast? = some ll →
      lo.Index ≤ ll.Index →
      handleIncomingResponseBlock E (g :: rest) offered = ((g :: rest), Except.ok ())) ∧
    (∀ lo ll, offered.getLast? = some lo → (g :: rest).getLast? = some ll →
      ll.Index < lo.Index →
      Chain.VerifyChain E ⟨offered, []⟩ g = Except.ok () →
      handleIncomingResponseBlock E (g :: rest) offered = (offered, Except.ok ())) ∧
    (∀ lo ll e, offered.getLast? = some lo → (g :: rest).getLast? = some ll →
      ll.Index < lo.Index →
      Chain.VerifyChain E ⟨offered, []⟩ g = Except.error e →
      handleIncomingResponseBlock E (g :: rest) offered =
        ((g :: rest), Except.error ("invalid chain received: " ++ e))) := by
  refine ⟨rfl, ?_, ?_, ?_⟩
  · intro lo ll h1 h2 h3
    simp only [handleIncomingResponseBlock, h1, h2, if_pos h3]
  · intro lo ll h1 h2 h3 h4
    simp only [handleIncomingResponseBlock, h1, h2, if_neg (Nat.not_le.mpr h3), h4]
  · intro lo ll e h1 h2 h3 h4
    simp only [handleIncomingResponseBlock, h1, h2, if_neg (Nat.not_le.mpr h3), h4]

/-- exB5 is an offered tail block with consecutive index and correct
hash link, which the (buggy) VerifyChain loop does not even inspect. -/
def exB5 : Block := ⟨1, [7], 5, [], "M", 0, [6], 1, some leafZ⟩

/-- Witness for C5: a longer offered chain that passes VerifyChain
replaces the local block sequence. -/
theorem resp_replacement_semantics_witness :
    handleIncomingResponseBlock ext0 [exG] [exG, exB5] = ([exG, exB5], Except.ok ()) :=
  (resp_replacement_semantics ext0 exG [] [exG, exB5]).2.2.1 exB5 exG (by decide)
    (by decide) (by decide) (by rfl)

/-- exB8 is a block five indices ahead of the local tail with an
unknown parent hash; the handler rejects it. -/
def exB8 : Block := ⟨5, [99], 0, [], "M", 0, [0], 1, some leafZ⟩

/-- C8 is refuted: a rejected BLOCK whose index exceeds the local tail
index publishes nothing at all — no REQ is initiated (and consequently
no rate-limit state exists anywhere in the handler). -/
theorem rejected_block_publishes_nothing :
    (handleBlockMsgBlock ext0 ⟨[exG], []⟩ exB8).published = [] ∧
    (handleBlockMsgBlock ext0 ⟨[exG], []⟩ exB8).rejected.isSome = true ∧
    exG.Index < exB8.Index :=
  ⟨by decide, by decide, by decide⟩

/-- C8 (amended): the BLOCK branch of the handler publishes nothing on
any input (rejection is only logged); a REQ carrying the local tail
index is published only by handleIncomingRequestBlock, when the
requested index is at or beyond the local chain length, and without any
rate limiting. -/
theorem block_rejection_publishes_no_request (E : Ext) (c : Chain) (b : Block) (idx : Nat)
    (last : Block) (hlast : c.Blocks.getLast? = some last)
    (hidx : c.Blocks.length ≤ idx) :
    (handleBlockMsgBlock E c b).published = [] ∧
    handleIncomingRequestBlock c idx =
      ([⟨BlockMsgType.REQ, [], last.Index⟩], Except.ok ()) := by
  constructor
  · unfold handleBlockMsgBlock
    cases h : handleIncomingBlock E c b with
    | mk c2 r => cases r <;> rfl
  · simp only [handleIncomingRequestBlock, RequestChain, hlast, if_pos hidx]

/-- Witness for C8 (amended) at a concrete rejected block and request. -/
theorem block_rejection_publishes_no_request_witness :
    (handleBlockMsgBlock ext0 ⟨[exG], []⟩ exB8).published = [] ∧
    handleIncomingRequestBlock ⟨[exG], []⟩ 3 =
      ([⟨BlockMsgType.REQ, [], exG.Index⟩], Except.ok ()) :=
  block_rejection_publishes_no_request ext0 ⟨[exG], []⟩ exB8 3 exG (by decide) (by decide)

theorem verifyNewBlock_checkSpend (E : Ext) (c : Chain) (b : Block) (prev : Block)
    (h : c.VerifyNewBlock E b (some prev) = true) :
    checkSpend c b.Transactions (fun _ => 0) = true := by
  simp only [Chain.VerifyNewBlock] at h
  split at h
  · simp at h
  split at h
  · simp at h
  split at h
  · simp at h
  split at h
  · simp at h
  split at h
  · simp at h
  · rename_i h5
    exact Decidable.not_not.mp h5

theorem checkSpend_balance (c : Chain) (l : List Transaction) :
    ∀ (mem : String → Nat), checkSpend c l mem = true →
      ∀ t ∈ l, t.From ≠ COINBASE → t.Amount + t.Price ≤ c.GetBalance t.From := by
  induction l with
  | nil => intro mem _ t ht; cases ht
  | cons u rest ih =>
    intro mem h t ht hcb
    simp only [checkSpend] at h
    by_cases hu : u.From = COINBASE
    · rw [if_pos hu] at h
      rcases List.mem_cons.mp ht with heq | hmem
      · exact absurd (heq ▸ hu) hcb
      · exact ih mem h t hmem hcb
    · rw [if_neg hu] at h
      split at h
      · simp at h
      · rename_i hbal
        split at h
        · simp at h
        · rcases List.mem_cons.mp ht with heq | hmem
          · subst heq; omega
          · exact ih _ h t hmem hcb

theorem checkSpend_nonce_ge (c : Chain) (l2 : List Transaction) :
    ∀ (mem : String → Nat) (t2 : Transaction) (l3 : List Transaction),
      checkSpend c (l2 ++ t2 :: l3) mem = true → t2.From ≠ COINBASE →
      c.chainCount t2.From + mem t2.From ≤ t2.Nonce := by
  induction l2 with
  | nil =>
    intro mem t2 l3 h hcb
    simp only [List.nil_append, checkSpend] at h
    rw [if_neg hcb] at h
    split at h
    · simp at h
    · split at h
      · simp at h
      · rename_i hnonce
        have heq := Decidable.not_not.mp hnonce
        rw [Chain.GetNonce] at heq
        omega
  | cons u rest ih =>
    intro mem t2 l3 h hcb
    simp only [List.cons_append, checkSpend] at h
    by_cases hu : u.From = COINBASE
    · rw [if_pos hu] at h
      exact ih mem t2 l3 h hcb
    · rw [if_neg hu] at h
      split at h
      · simp at h
      · split at h
        · simp at h
        · have hge := ih _ t2 l3 h hcb
          simp only [] at hge
          have hmono : mem t2.From ≤ if t2.From = u.From then mem t2.From + 1 else mem t2.From := by
            split <;> omega
          omega

theorem checkSpend_distinct_nonces (c : Chain) (l1 : List Transaction) :
    ∀ (mem : String → Nat) (t1 : Transaction) (l2 : List Transaction)
      (t2 : Transaction) (l3 : List Transaction),
      checkSpend c (l1 ++ t1 :: l2 ++ t2 :: l3) mem = true →
      t1.From ≠ COINBASE → t2.From = t1.From → t1.Nonce ≠ t2.Nonce := by
  induction l1 with
  | nil =>
    intro mem t1 l2 t2 l3 h h1 h2
    simp only [List.nil_append, checkSpend] at h
    rw [if_neg h1] at h
    split at h
    · simp at h
    · split at h
      · simp at h
      · rename_i hnonce
        have ht1 := Decidable.not_not.mp hnonce
        rw [Chain.GetNonce] at ht1
        have hge := checkSpend_nonce_ge c l2 _ t2 l3 h (h2 ▸ h1)
        rw [h2] at hge
        have hge2 : c.chainCount t1.From + (mem t1.From + 1) ≤ t2.Nonce := by
          simpa using hge
        omega
  | cons u rest ih =>
    intro mem t1 l2 t2 l3 h h1 h2
    simp only [List.cons_append, checkSpend] at h
    by_cases hu : u.From = COINBASE
    · rw [if_pos hu] at h
      exact ih mem t1 l2 t2 l3 h h1 h2
    · rw [if_neg hu] at h
      split at h
      · simp at h
      · split at h
        · simp at h
        · exact ih _ t1 l2 t2 l3 h h1 h2

/-- C6: a block containing two non-coinbase transactions from the same
sender with equal nonces never passes VerifyNewBlock against a previous
block: the expected nonces of successive same-sender transactions in a
block are strictly increasing, so the duplicate fails its check. -/
theorem duplicate_nonce_rejected (E : Ext) (c : Chain) (b : Block) (prev : Block)
    (l1 l2 l3 : List Transaction) (t1 t2 : Transaction)
    (hsplit : b.Transactions = l1 ++ t1 :: l2 ++ t2 :: l3)
    (hcb1 : t1.From ≠ COINBASE) (hfrom : t2.From = t1.From)
    (hnonce : t1.Nonce = t2.Nonce) :
    c.VerifyNewBlock E b (some prev) = false := by
  rcases Bool.eq_false_or_eq_true (c.VerifyNewBlock E b (some prev)) with ht | hf
  case inr => exact hf
  · exfalso
    have hcs := verifyNewBlock_checkSpend E c b prev ht
    rw [hsplit] at hcs
    exact checkSpend_distinct_nonces c l1 (fun _ => 0) t1 l2 t2 l3 hcs hcb1 hfrom hnonce

/-- exT61 and exT62 are two transactions from the same sender with the
same nonce and different recipients. -/
def exT61 : Transaction := ⟨"A", "B", 1, 0, 0, List.replicate 65 0⟩

/-- exT62 is the second duplicate-nonce transaction, paired with
exT61. -/
def exT62 : Transaction := ⟨"A", "C", 1, 0, 0, List.replicate 65 0⟩

/-- exB6 is a candidate block carrying the duplicate-nonce pair. -/
def exB6 : Block := ⟨1, [7], 0, [exT61, exT62], "M", 0, [0], 1, some leafZ⟩

/-- Witness for C6 at a concrete duplicate-nonce block. -/
theorem duplicate_nonce_rejected_witness :
    Chain.VerifyNewBlock ext0 ⟨[exG], []⟩ exB6 (some exG) = false :=
  duplicate_nonce_rejected ext0 ⟨[exG], []⟩ exB6 exG [] [] [] exT61 exT62 rfl
    (by decide) (by decide) (by decide)

/-- exCb4 is the coinbase of the double-spend block exB4. -/
def exCb4 : Transaction := ⟨COINBASE, "M", 100, 1, 0, []⟩

/-- exTA1 spends the sender's whole 1000 balance once. -/
def exTA1 : Transaction := ⟨"A", "B", 1000, 0, 0, List.replicate 65 0⟩

/-- exTA2 spends the same 1000 balance a second time in the same
block, with the next nonce. -/
def exTA2 : Transaction := ⟨"A", "C", 1000, 1, 0, List.replicate 65 0⟩

/-- exRoot4 is the Merkle root recomputed for exB4 under ext0. -/
def exRoot4 : MTree :=
  MTree.node (MTree.node leafZ leafZ z32) (MTree.node leafZ leafZ z32) z32

/-- exB4 is a block that double-spends the sender's balance inside one
block while passing every VerifyNewBlock check. -/
def exB4 : Block := ⟨1, [7], 0, [exCb4, exTA1, exTA2], "M", 0, [0], 1, some exRoot4⟩

/-- C4 is refuted: exB4 passes VerifyNewBlock against the chain [exG]
— each of its two full-balance spends is checked against the pre-block
snapshot — yet after the verified append GetBalance of the sender is
negative. -/
theorem intra_block_overspend_negative_balance :
    Chain.VerifyNewBlock ext0 ⟨[exG], []⟩ exB4 (some exG) = true ∧
    (Chain.AddBlock ⟨[exG], []⟩ exB4).GetBalance "A" < 0 :=
  ⟨by decide, by decide⟩

/-- C4 (amended): what a verified append does guarantee is the
per-transaction pre-state check: every non-coinbase transaction of an
accepted block individually satisfied balance ≥ amount + price against
the chain before the block; balances can still turn negative when one
sender spends more than once within a block. -/
theorem verified_append_pre_state_check (E : Ext) (c : Chain) (b : Block) (prev : Block)
    (h : c.VerifyNewBlock E b (some prev) = true) :
    ∀ t ∈ b.Transactions, t.From ≠ COINBASE → t.Amount + t.Price ≤ c.GetBalance t.From :=
  checkSpend_balance c b.Transactions (fun _ => 0) (verifyNewBlock_checkSpend E c b prev h)

/-- Witness for C4 (amended): the first spend of exB4 satisfied the
pre-state bound. -/
theorem verified_append_pre_state_check_witness :
    exTA1.Amount + exTA1.Price ≤ Chain.GetBalance ⟨[exG], []⟩ exTA1.From :=
  verified_append_pre_state_check ext0 ⟨[exG], []⟩ exB4 exG (by decide) exTA1
    (by decide) (by decide)

/-- priceSet rewrites one transaction's Price field, leaving every
other field alone. -/
def priceSet (f : Transaction → Int) (t : Transaction) : Transaction :=
  { t with Price := f t }

/-- mapPrice replaces every transaction's Price field across the
canonical blocks, leaving all other fields alone. -/
def mapPrice (f : Transaction → Int) (c : Chain) : Chain :=
  ⟨c.Blocks.map (fun b => { b with Transactions := b.Transactions.map (priceSet f) }),
   c.pendingForkBlocks⟩

/-- coreKey is a transaction's identity ignoring Price and Signature. -/
def coreKey (t : Transaction) : String × String × Int × Nat :=
  (t.From, t.To, t.Amount, t.Nonce)

/-- txDelta is the per-transaction balance movement GetBalance applies:
credit of Amount to the recipient, debit of Amount from the sender;
Price appears nowhere in it. -/
def txDelta (address : String) (t : Transaction) : Int :=
  (if t.To = address then t.Amount else 0) - (if t.From = address then t.Amount else 0)

theorem foldr_txs_map (f : Transaction → Int) (bs : List Block) :
    (bs.map (fun b => { b with Transactions := b.Transactions.map (priceSet f) })).foldr
      (fun b acc => b.Transactions ++ acc) [] =
    ((bs.foldr (fun b acc => b.Transactions ++ acc) []).map (priceSet f)) := by
  induction bs with
  | nil => rfl
  | cons b rest ih => simp [ih]

theorem allTxs_mapPrice (f : Transaction → Int) (c : Chain) :
    (mapPrice f c).allTxs = c.allTxs.map (priceSet f) :=
  foldr_txs_map f c.Blocks

theorem balanceFold_no_dup (address : String) (l : List Transaction) :
    ∀ (seen : List TxKey) (bal : Int),
      l.Pairwise (fun a b => a.hashKey ≠ b.hashKey) →
      (∀ t ∈ l, t.hashKey ∉ seen) →
      balanceFold address l seen bal = bal + (l.map (txDelta address)).sum := by
  induction l with
  | nil => intro seen bal _ _; simp [balanceFold]
  | cons t rest ih =>
    intro seen bal hpw hseen
    obtain ⟨hhead, htail⟩ := List.pairwise_cons.mp hpw
    simp only [balanceFold, if_neg (hseen t (List.mem_cons_self t rest))]
    rw [ih (t.hashKey :: seen) _ htail (by
      intro u hu
      rw [List.mem_cons]
      push_neg
      exact ⟨Ne.symm (hhead u hu), hseen u (List.mem_cons_of_mem t hu)⟩)]
    have hstep : (if t.To = address then (if t.From = address then bal - t.Amount else bal) + t.Amount
        else (if t.From = address then bal - t.Amount else bal)) = bal + txDelta address t := by
      unfold txDelta
      split_ifs <;> ring
    rw [hstep]
    simp
    ring

/-- C9: GetBalance moves only the Amount field: replacing every
transaction's Price by arbitrary values changes no balance (stated on
chains whose transactions are pairwise distinct ignoring Price, so the
hash de-duplication pattern is unaffected), even though VerifyNewBlock
demands balance ≥ amount + price for every non-coinbase transaction. -/
theorem fee_never_moved (E : Ext) (f : Transaction → Int) (c : Chain) (address : String)
    (b : Block) (prev : Block)
    (hdist : c.allTxs.Pairwise (fun t u => coreKey t ≠ coreKey u)) :
    (mapPrice f c).GetBalance address = c.GetBalance address ∧
    (c.VerifyNewBlock E b (some prev) = true →
      ∀ t ∈ b.Transactions, t.From ≠ COINBASE →
        t.Amount + t.Price ≤ c.GetBalance t.From) := by
  constructor
  · have h1 : c.allTxs.Pairwise (fun a b => a.hashKey ≠ b.hashKey) := by
      refine hdist.imp ?_
      intro a b hne hk
      apply hne
      simp only [Transaction.hashKey, TxKey.mk.injEq] at hk
      obtain ⟨e1, e2, e3, e4, e5⟩ := hk
      simp [coreKey, e1, e2, e3, e4]
    have hmapped : (c.allTxs.map (priceSet f)).Pairwise
        (fun a b => a.hashKey ≠ b.hashKey) := by
      rw [List.pairwise_map]
      refine hdist.imp ?_
      intro a b hne hk
      apply hne
      simp only [priceSet, Transaction.hashKey, TxKey.mk.injEq] at hk
      obtain ⟨e1, e2, e3, e4, e5⟩ := hk
      simp [coreKey, e1, e2, e3, e4]
    rw [Chain.GetBalance, Chain.GetBalance, allTxs_mapPrice]
    rw [balanceFold_no_dup address _ [] 0 hmapped (by simp),
        balanceFold_no_dup address _ [] 0 h1 (by simp)]
    rw [List.map_map]
    rfl
  · intro hv
    exact checkSpend_balance c b.Transactions (fun _ => 0)
      (verifyNewBlock_checkSpend E c b prev hv)

/-- Witness for C9 at a concrete chain and price rewrite. -/
theorem fee_never_moved_witness :
    (mapPrice (fun _ => 42) ⟨[exG], []⟩).GetBalance "A" =
      Chain.GetBalance ⟨[exG], []⟩ "A" :=
  (fee_never_moved ext0 (fun _ => 42) ⟨[exG], []⟩ "A" exG exG
    (by simp [Chain.allTxs, exG])).1

end LabChain
